import Mathlib

/-!
Verification of the unit-test harness of an event-transformation topology
(`src/topology/unit_test.rs`) and of the `concat` transform's substring
parser (`src/transforms/concat.rs`).

Rust `HashMap`s are modelled as association lists (`List (String × β)`)
with a fixed, deterministic iteration order; `HashMap::insert` replaces
the value of an existing key in place.  Recursive functions of the source
that can diverge on cyclic graphs (`links_to_a_leaf`, `walk`) take a fuel
parameter and return `none` when the fuel runs out, so that divergence of
the source is observable as `∀ fuel, … = none`.  Events of the harness are
opaque values built from strings, so they are modelled as `String`; live
transforms are modelled as their observable behaviour `Event → List Event`
(one call of `transform_into` appends the emitted events), and conditions
as `Event → Bool`.
-/

set_option autoImplicit false

/-! ## Association-list primitives (model of `HashMap`) -/

/-- First value stored under key `k` (model of `HashMap::get`). -/
def lookupKV {β : Type _} : List (String × β) → String → Option β
  | [], _ => none
  | (a, b) :: rest, k => if a = k then some b else lookupKV rest k

/-- Model of `HashMap::insert`: replace the value of an existing key in
place, otherwise append the new entry. -/
def insertKV {β : Type _} : List (String × β) → String → β → List (String × β)
  | [], k, v => [(k, v)]
  | (a, b) :: rest, k, v =>
    if a = k then (k, v) :: rest else (a, b) :: insertKV rest k v

/-- Model of `HashMap::remove`: the removed value (if any) and the rest. -/
def removeKV {β : Type _} : List (String × β) → String → Option β × List (String × β)
  | [], _ => (none, [])
  | (a, b) :: rest, k =>
    if a = k then (some b, rest)
    else
      let r := removeKV rest k
      (r.1, (a, b) :: r.2)

/-- Model of `HashMap::contains_key`. -/
def containsKey {β : Type _} (m : List (String × β)) (k : String) : Bool :=
  (lookupKV m k).isSome

/-- The keys of an association list. -/
def keysOf {β : Type _} (m : List (String × β)) : List String :=
  m.map Prod.fst

/-- Model of inserting into a `HashMap<String, ()>` used as a set. -/
def insertSet (l : List String) (x : String) : List String :=
  if x ∈ l then l else l ++ [x]

/-! ## Compiled unit tests and the evaluator (`unit_test.rs` lines 11–81) -/

/-- Events are opaque; the harness only builds them from strings. -/
abbrev Event := String

/-- `UnitTestTransform`: a live transform (its observable behaviour) and its
downstream node names. -/
structure UnitTestTransform where
  transform : Event → List Event
  next : List String

/-- `UnitTestCheck`: an extraction point and its named conditions. -/
structure UnitTestCheck where
  extract_from : String
  conditions : List (String × (Event → Bool))

/-- `UnitTest`: the compiled test. -/
structure UnitTest where
  name : String
  input : String × Event
  transforms : List (String × UnitTestTransform)
  checks : List UnitTestCheck

/-- The recorded per-node event streams (`aggregated_results`). -/
abbrev Agg := List (String × List Event)

/-- The `for child in targets` loop of `walk`, with the recursive call
passed explicitly so that `walk` stays structurally recursive on fuel. -/
def walkList (w : String → List Event → Agg → Option Agg) :
    List String → List Event → Agg → Option Agg
  | [], _, agg => some agg
  | c :: rest, results, agg =>
    match w c results agg with
    | none => none
    | some agg1 => walkList w rest results agg1

/-- Model of `walk` (`unit_test.rs` lines 30–50).  Each input event is fed
through the node's transform (appending to `results`), every child receives
a clone of the emitted list, and the node's entry is inserted into the
aggregated results AFTER the recursive calls.  A node absent from the
transforms map records an empty list and has no children. -/
def walk : Nat → String → List Event → List (String × UnitTestTransform) → Agg → Option Agg
  | 0, _, _, _, _ => none
  | fuel + 1, node, inputs, transforms, agg =>
    let pr : List Event × List String :=
      match lookupKV transforms node with
      | some t => (inputs.flatMap t.transform, t.next)
      | none => ([], [])
    match walkList (fun c res a => walk fuel c res transforms a) pr.2 pr.1 agg with
    | none => none
    | some agg1 => some (insertKV agg1 node pr.1)

/-- The failure message of `UnitTest::run` for a missing extraction point. -/
def expectedMsg (e : String) : String :=
  "expected resulting events from transform '" ++ e ++ "', found none"

/-- The check loop of `UnitTest::run` (lines 64–77).  When the extraction
point is present in the results the source iterates the conditions and
detects unsatisfied ones, but the failing branch is an empty `// TODO`
stub, so nothing is recorded; only a missing extraction point pushes an
error. -/
def runChecks : List UnitTestCheck → Agg → List String
  | [], _ => []
  | c :: rest, res =>
    match lookupKV res c.extract_from with
    | some _ => runChecks rest res
    | none => expectedMsg c.extract_from :: runChecks rest res

/-- Model of `UnitTest::run` (lines 52–81). -/
def UnitTest.run (fuel : Nat) (t : UnitTest) : Option (List String) :=
  match walk fuel t.input.1 [t.input.2] t.transforms [] with
  | none => none
  | some results => some (runChecks t.checks results)

/-! ## The topology reducer (`unit_test.rs` lines 85–131) -/

/-- Forward adjacency: transform name ↦ transforms that list it as input. -/
abbrev NodeMap := List (String × List String)

/-- The memoization table `link_checked`. -/
abbrev Memo := List (String × Bool)

/-- The `filter … count > 0` over a node's outputs in `links_to_a_leaf`:
the recursion is evaluated on EVERY child (Rust's `count` forces the whole
iterator), threading the memo table, and the results are or-ed. -/
def linksFold (f : String → Memo → Option (Bool × Memo)) :
    List String → Memo → Option (Bool × Memo)
  | [], lc => some (false, lc)
  | c :: rest, lc =>
    match f c lc with
    | none => none
    | some (b, lc1) =>
      match linksFold f rest lc1 with
      | none => none
      | some (b2, lc2) => some (b || b2, lc2)

/-- Model of `links_to_a_leaf` (lines 85–106).  Note the memo table is
updated only AFTER the recursive calls return: there is no tentative
seeding on entry, so the recursion can revisit the node it started from. -/
def linksToALeaf : Nat → String → List String → Memo → NodeMap → Option (Bool × Memo)
  | 0, _, _, _, _ => none
  | fuel + 1, target, leaves, linkChecked, touts =>
    match lookupKV linkChecked target with
    | some b => some (b, linkChecked)
    | none =>
      if target ∈ leaves then
        -- `leaves.contains_key(target) || …` short-circuits: the children
        -- of a leaf are not explored.
        some (true, insertKV linkChecked target true)
      else
        match lookupKV touts target with
        | none => some (false, insertKV linkChecked target false)
        | some outs =>
          match linksFold (fun c lc => linksToALeaf fuel c leaves lc touts) outs linkChecked with
          | none => none
          | some (b, lc1) => some (b, insertKV lc1 target b)

/-- The `retain` phase of `reduce_transforms` (lines 121–130): keep a node
iff it is the root or its memo entry is `true`; for every kept node other
than the root, drop the children whose memo entry is not `true` (the root
keeps all of its children). -/
def retainMap (m : NodeMap) (lc : Memo) (root : String) : NodeMap :=
  m.filterMap fun nc =>
    if nc.1 = root ∨ lookupKV lc nc.1 = some true then
      some (nc.1, nc.2.filter fun c => nc.1 = root ∨ lookupKV lc c = some true)
    else none

/-- Model of `reduce_transforms` (lines 110–131). -/
def reduce_transforms (fuel : Nat) (root : String) (leaves : List String)
    (touts : NodeMap) : Option NodeMap :=
  match linksToALeaf fuel root leaves [] touts with
  | none => none
  | some (rootLinked, lc) =>
    some (retainMap (if rootLinked then touts else []) lc root)

/-! ## The test compiler (`unit_test.rs` lines 133–290)

Transform and condition builders are dynamic-dispatch collaborators whose
`build()` either yields a live instance or an error message; they are
modelled by their (deterministic) build result. -/

/-- `TransformConfig`-shaped entry of `Config.transforms`: input names plus
the result of `inner.build()`. -/
structure TransformConfigM where
  inputs : List String
  inner : Except String (Event → List Event)

/-- A `TestCondition` is an embedded condition description (modelled by its
build result) or a raw string (reserved, rejected at compile time). -/
inductive TestCondition where
  | embedded : Except String (Event → Bool) → TestCondition
  | stringCond : String → TestCondition

/-- The `input` record of a test definition. -/
structure TestInput where
  insert_at : String
  type_str : String
  value : Option String

/-- One `outputs` entry of a test definition. -/
structure TestOutput where
  extract_from : String
  conditions : List (String × TestCondition)

/-- `TestDefinition`. -/
structure TestDefinition where
  name : String
  input : TestInput
  outputs : List TestOutput

/-- `Config`: the transform graph plus the test definitions. -/
structure ConfigM where
  transforms : List (String × TransformConfigM)
  tests : List TestDefinition

/-- Inner loop of the adjacency construction (lines 147–153): for each
input `i` of transform `k`, if the map has key `i`, add `k` to its output
set. -/
def addEdges (k : String) : List String → NodeMap → NodeMap
  | [], m => m
  | i :: rest, m =>
    match lookupKV m i with
    | some outs => addEdges k rest (insertKV m i (insertSet outs k))
    | none => addEdges k rest m

/-- Outer loop of the adjacency construction over `config.transforms`. -/
def buildAdjacency : List (String × TransformConfigM) → NodeMap → NodeMap
  | [], m => m
  | (k, tc) :: rest, m => buildAdjacency rest (addEdges k tc.inputs m)

/-- The leaf set (lines 163–166): every `extract_from` of the outputs. -/
def leavesAux : List TestOutput → List String → List String
  | [], l => l
  | o :: rest, l => leavesAux rest (insertSet l o.extract_from)

/-- Leaves of a test definition. -/
def leavesOf (outs : List TestOutput) : List String :=
  leavesAux outs []

/-- The transform-building loop (lines 173–191): each configured transform
whose name can be REMOVED from the reduced `transform_outputs` map is
built; on success it is stored with its output set as `next`, on failure an
error is recorded.  The removal drains the reduced map. -/
def buildTransforms :
    List (String × TransformConfigM) → NodeMap →
    List (String × UnitTestTransform) → List String →
    NodeMap × List (String × UnitTestTransform) × List String
  | [], touts, trs, errs => (touts, trs, errs)
  | (k, tc) :: rest, touts, trs, errs =>
    match removeKV touts k with
    | (some outs, touts') =>
      match tc.inner with
      | Except.ok f => buildTransforms rest touts' (insertKV trs k ⟨f, outs⟩) errs
      | Except.error e =>
        buildTransforms rest touts' trs
          (errs ++ ["failed to build transform '" ++ k ++ "': " ++ e])
    | (none, _) => buildTransforms rest touts trs errs

/-- The topology check (lines 197–204): for each output whose
`extract_from` is not a key of the (by now drained) `transform_outputs`
map, record an error. -/
def topoErrors (insertAt : String) (touts : NodeMap) : List TestOutput → List String
  | [] => []
  | o :: rest =>
    if containsKey touts o.extract_from then topoErrors insertAt touts rest
    else
      ("unable to complete topology between input target '" ++ insertAt ++
        "' and '" ++ o.extract_from ++ "'") :: topoErrors insertAt touts rest

/-- The input-event construction (lines 208–223). -/
def buildInputEvent (input : TestInput) : Event × List String :=
  if input.type_str = "raw" then
    match input.value with
    | some v => (v, [])
    | none => ("", ["input type 'raw' requires the field 'value'"])
  else
    ("", ["unrecognized input type '" ++ input.type_str ++ "', expected one of: 'raw'"])

/-- The per-output condition construction (lines 228–248). -/
def buildConds :
    List (String × TestCondition) → List (String × (Event → Bool)) → List String →
    List (String × (Event → Bool)) × List String
  | [], cs, errs => (cs, errs)
  | (k, tc) :: rest, cs, errs =>
    match tc with
    | TestCondition.embedded (Except.ok c) => buildConds rest (insertKV cs k c) errs
    | TestCondition.embedded (Except.error e) =>
      buildConds rest cs (errs ++ ["failed to create test condition '" ++ k ++ "': " ++ e])
    | TestCondition.stringCond _ =>
      buildConds rest cs
        (errs ++ ["failed to create test condition '" ++ k ++
          "': string conditions are not yet supported"])

/-- The checks construction (lines 226–253). -/
def buildChecks : List TestOutput → List UnitTestCheck → List String →
    List UnitTestCheck × List String
  | [], cs, errs => (cs, errs)
  | o :: rest, cs, errs =>
    let r := buildConds o.conditions [] []
    buildChecks rest (cs ++ [⟨o.extract_from, r.1⟩]) (errs ++ r.2)

/-- Model of `build_unit_test` (lines 133–265).  `none` when the reducer
diverges (cyclic graph) and the fuel runs out. -/
def build_unit_test (fuel : Nat) (d : TestDefinition) (config : ConfigM) :
    Option (Except (List String) UnitTest) :=
  let touts1 := buildAdjacency config.transforms (config.transforms.map fun kt => (kt.1, []))
  if containsKey touts1 d.input.insert_at = false then
    some (Except.error ["unable to locate test target '" ++ d.input.insert_at ++ "'"])
  else
    match reduce_transforms fuel d.input.insert_at (leavesOf d.outputs) touts1 with
    | none => none
    | some touts2 =>
      let bt := buildTransforms config.transforms touts2 [] []
      if bt.2.2 ≠ [] then some (Except.error bt.2.2)
      else
        let ip := buildInputEvent d.input
        let bc := buildChecks d.outputs [] []
        let allErrs := topoErrors d.input.insert_at bt.1 d.outputs ++ ip.2 ++ bc.2
        if allErrs ≠ [] then some (Except.error allErrs)
        else
          some (Except.ok
            { name := d.name
              input := (d.input.insert_at, ip.1)
              transforms := bt.2.1
              checks := bc.1 })

/-- Rust's `str::replace("\n", "\n\t")` specialised to its use on line 279:
indent every line break by one tab. -/
def indentNewlines : List Char → List Char
  | [] => []
  | c :: rest =>
    if c = '\n' then '\n' :: '\t' :: indentNewlines rest
    else c :: indentNewlines rest

/-- `Vec::join("\n")` on the error strings of a failed test. -/
def joinWith : List String → String → String
  | [], _ => ""
  | [x], _ => x
  | x :: y :: rest, sep => x ++ sep ++ joinWith (y :: rest) sep

/-- The loop of `build_unit_tests` (lines 271–283). -/
def buildUnitTestsGo (fuel : Nat) (config : ConfigM) :
    List TestDefinition → List UnitTest → List String →
    Option (Except (List String) (List UnitTest))
  | [], tests, errors =>
    some (if errors = [] then Except.ok tests else Except.error errors)
  | t :: rest, tests, errors =>
    match build_unit_test fuel t config with
    | none => none
    | some (Except.ok u) => buildUnitTestsGo fuel config rest (tests ++ [u]) errors
    | some (Except.error errs) =>
      buildUnitTestsGo fuel config rest tests
        (errors ++ ["Failed to build test '" ++ t.name ++ "':\n" ++
          String.mk (indentNewlines (joinWith errs "\n").data)])

/-- Model of `build_unit_tests` (lines 267–290). -/
def build_unit_tests (fuel : Nat) (config : ConfigM) :
    Option (Except (List String) (List UnitTest)) :=
  buildUnitTestsGo fuel config config.tests [] []

/-! ## The `concat` transform (`transforms/concat.rs`) -/

namespace concat

/-- The `Substring` record built by the item parser (field `end` of the
source is renamed `endPos`, `end` being reserved in Lean). -/
structure Substring where
  source : String
  start : Option Nat
  endPos : Option Nat
deriving DecidableEq

/-- Outcome of `Substring::new`: success, a build error, or a panic (the
`unwrap` on an exhausted iterator on line 79). -/
inductive ParseResult where
  | ok : Substring → ParseResult
  | err : String → ParseResult
  | panics : ParseResult
deriving DecidableEq

/-- `buffer.parse::<u8>()` on a buffer that (by construction of the parser)
only ever holds decimal digits: the numeric value when the buffer is a
non-empty digit string whose value fits in a `u8`, otherwise `none`. -/
def parseU8 (s : List Char) : Option Nat :=
  if s = [] then none
  else if s.all Char.isDigit then
    let v := s.foldl (fun a c => a * 10 + (c.toNat - '0'.toNat)) 0
    if v < 256 then some v else none
  else none

/-- The inner `while` loop of `Substring::new` (lines 70–107), entered
after a `[`.  Arguments: remaining characters, `source`, `start`, `buffer`.
When the iterator is exhausted without a `]` the control falls back to the
outer loop, which is also exhausted, so the residual buffer (if non-empty)
is accepted as a bare source (lines 115–124). -/
def bracketLoop : List Char → List Char → Option Nat → List Char → ParseResult
  | [], _, _, buffer =>
    if buffer = [] then ParseResult.err "invalid format, use source[start..end]"
    else ParseResult.ok ⟨String.mk buffer, none, none⟩
  | c :: rest, source, start, buffer =>
    if c = '.' then
      -- `start` is (re)parsed from the buffer; the next character is
      -- `unwrap`-ed and must be a second `.`.
      match rest with
      | [] => ParseResult.panics
      | c2 :: rest2 =>
        if c2 = '.' then bracketLoop rest2 source (parseU8 buffer) []
        else ParseResult.err "invalid format, use source[start..end]"
    else if c = ']' then ParseResult.ok ⟨String.mk source, start, parseU8 buffer⟩
    else if c.isDigit then bracketLoop rest source start (buffer ++ [c])
    else ParseResult.err "invalid format, missing ']'"

/-- The outer `while` loop of `Substring::new` (lines 64–114): characters
before a `[` accumulate into the buffer, a `[` moves the buffer into
`source` and enters the bracket loop, and exhaustion accepts a non-empty
buffer as a bare source. -/
def outerLoop : List Char → List Char → ParseResult
  | [], buffer =>
    if buffer = [] then ParseResult.err "invalid format, use source[start..end]"
    else ParseResult.ok ⟨String.mk buffer, none, none⟩
  | c :: rest, buffer =>
    if c = '[' then bracketLoop rest buffer none []
    else outerLoop rest (buffer ++ [c])

/-- Model of `Substring::new` (lines 57–126). -/
def Substring.new (input : String) : ParseResult :=
  outerLoop input.data []

/-- A log event as seen by `concat`: named fields holding byte strings
(`value.as_bytes()` is the field's byte representation). -/
abbrev LogEvent := List (String × List Nat)

/-- `Bytes::slice(start, end)`: the bytes in `[start, end)`; panics
(`none`) unless `start ≤ end ≤ len`. -/
def bytesSlice (b : List Nat) (s e : Nat) : Option (List Nat) :=
  if s ≤ e ∧ e ≤ b.length then some ((b.take e).drop s) else none

/-- `Vec::join` on byte strings. -/
def joinBytes (sep : List Nat) : List (List Nat) → List Nat
  | [] => []
  | [x] => x
  | x :: y :: rest => x ++ sep ++ joinBytes sep (y :: rest)

/-- The `filter_map` of `Concat::transform` (lines 149–164): items whose
source field is absent are skipped; for a present field the slice bounds
default to `0` and the full byte length.  `none` models a slice panic. -/
def concatParts : List Substring → LogEvent → Option (List (List Nat))
  | [], _ => some []
  | sub :: rest, ev =>
    match lookupKV ev sub.source with
    | some b =>
      match bytesSlice b (sub.start.getD 0) (sub.endPos.getD b.length) with
      | some part => (concatParts rest ev).map (part :: ·)
      | none => none
    | none => concatParts rest ev

/-- Model of `Concat::transform` (lines 146–175): join the computed parts
with the joiner and insert the result under the target field. -/
def transform (target : String) (joiner : List Nat) (items : List Substring)
    (ev : LogEvent) : Option LogEvent :=
  (concatParts items ev).map fun parts => insertKV ev target (joinBytes joiner parts)

end concat

/-! ## Semantic predicates about graphs -/

/-- `n` reaches a leaf: `n` is a leaf, or some child of `n` reaches one.
This is the least fixed point that `links_to_a_leaf` is meant to
compute. -/
inductive ReachesLeaf (lv : List String) (G : NodeMap) : String → Prop
  | leaf {n : String} : n ∈ lv → ReachesLeaf lv G n
  | step {n : String} {cs : List String} {c : String} :
      lookupKV G n = some cs → c ∈ cs → ReachesLeaf lv G c → ReachesLeaf lv G n

/-- Plain forward reachability from `s` along the adjacency edges. -/
inductive Reachable (G : NodeMap) (s : String) : String → Prop
  | refl : Reachable G s s
  | step {m : String} {cs : List String} {c : String} :
      Reachable G s m → lookupKV G m = some cs → c ∈ cs → Reachable G s c

/-- Leaf-avoiding reachability from `s`: reachability along paths none of
whose nodes BEFORE the endpoint is a leaf.  This is exactly the set of
nodes the memoized search visits, because `links_to_a_leaf` does not
explore the children of a leaf. -/
inductive LAReach (lv : List String) (G : NodeMap) (s : String) : String → Prop
  | refl : LAReach lv G s s
  | step {m : String} {cs : List String} {c : String} :
      LAReach lv G s m → m ∉ lv → lookupKV G m = some cs → c ∈ cs → LAReach lv G s c

/-- Every entry of the memo table is semantically correct. -/
def MemoValid (lv : List String) (G : NodeMap) (lc : Memo) : Prop :=
  ∀ n b, lookupKV lc n = some b → (b = true ↔ ReachesLeaf lv G n)

/-- The memo table is closed under children of its non-leaf keys. -/
def MemoClosed (lv : List String) (G : NodeMap) (lc : Memo) : Prop :=
  ∀ n, containsKey lc n = true → n ∉ lv →
    ∀ cs, lookupKV G n = some cs → ∀ c ∈ cs, containsKey lc c = true

/-! ## Concrete instances used by the claim theorems -/

/-- Test definition for the linear pipeline: inject at `A`, extract from
`C`, one embedded condition that builds and accepts every event. -/
def linearDef : TestDefinition :=
  { name := "linear"
    input := { insert_at := "A", type_str := "raw", value := some "x" }
    outputs := [{ extract_from := "C"
                  conditions := [("c", TestCondition.embedded (Except.ok fun _ => true))] }] }

/-- Linear pipeline `A → B → C`: the three transforms all build and `B`,
`C` take their predecessor as input. -/
def linearConfig : ConfigM :=
  { transforms :=
      [("A", { inputs := [], inner := Except.ok fun e => [e] }),
       ("B", { inputs := ["A"], inner := Except.ok fun e => [e] }),
       ("C", { inputs := ["B"], inner := Except.ok fun e => [e] })]
    tests := [linearDef] }

/-- The adjacency map of the linear pipeline. -/
def linearTouts : NodeMap := [("A", ["B"]), ("B", ["C"]), ("C", [])]

/-- A unit test whose single check has a condition no event satisfies. -/
def tC2 : UnitTest :=
  { name := "t2"
    input := ("A", "x")
    transforms := [("A", { transform := fun e => [e], next := [] })]
    checks := [{ extract_from := "A", conditions := [("c", fun _ => false)] }] }

/-- A unit test whose checked transform `B` is visited by the walk but
emits zero events. -/
def tC7 : UnitTest :=
  { name := "t7"
    input := ("A", "x")
    transforms :=
      [("A", { transform := fun e => [e], next := ["B"] }),
       ("B", { transform := fun _ => [], next := [] })]
    checks := [{ extract_from := "B", conditions := [("c", fun _ => true)] }] }

/-- A self-loop: node `T` lists itself among its outputs. -/
def loopG : NodeMap := [("T", ["T"])]

/-- Graph `A → B → X` used against claim C4: with leaves `{B, X}` the node
`X` lies on the path `A → B → X` ending in the leaf `X`, but the search
stops at the leaf `B` and never visits `X`. -/
def ceG : NodeMap := [("A", ["B"]), ("B", ["X"]), ("X", [])]

/-- A config with a single transform and a test with no outputs: the only
shape of test that `build_unit_test` can compile successfully. -/
def cW : ConfigM :=
  { transforms := [("A", { inputs := [], inner := Except.ok fun e => [e] })]
    tests := [] }

/-- The (output-less) test definition compiled in the C6 witness. -/
def dW : TestDefinition :=
  { name := "t"
    input := { insert_at := "A", type_str := "raw", value := some "x" }
    outputs := [] }

/-- The unit test produced by compiling `dW` against `cW`. -/
def tW : UnitTest :=
  { name := "t", input := ("A", "x"), transforms := [], checks := [] }

/-- Graph `A → {B, X}`, `B → C` with leaf `C`: the reduction drops `X` but
(root edges being kept wholly) leaves the dangling edge `A → X`. -/
def diamondG : NodeMap := [("A", ["B", "X"]), ("B", ["C"]), ("C", []), ("X", [])]

/-- `diamondG` after `reduce_transforms` with root `A` and leaves `[C]`. -/
def diamondG' : NodeMap := [("A", ["B", "X"]), ("B", ["C"]), ("C", [])]

/-- Everything `links_to_a_leaf` guarantees about a completed call: the
memo stays valid and closed, the boolean answers leaf-reachability, the
target is recorded, and new memo keys are leaf-avoiding-reachable from the
target. -/
def LinksConcl (lv : List String) (G : NodeMap) (t : String) (lc₀ : Memo)
    (res : Bool × Memo) : Prop :=
  MemoValid lv G res.2 ∧ MemoClosed lv G res.2 ∧
  (res.1 = true ↔ ReachesLeaf lv G t) ∧
  lookupKV res.2 t = some res.1 ∧
  (∀ n, containsKey res.2 n = true → containsKey lc₀ n = true ∨ LAReach lv G t n) ∧
  (∀ n, containsKey lc₀ n = true → containsKey res.2 n = true)

/-- The corresponding guarantees for the fold over a node's children. -/
def FoldConcl (lv : List String) (G : NodeMap) (cs : List String) (lc₀ : Memo)
    (res : Bool × Memo) : Prop :=
  MemoValid lv G res.2 ∧ MemoClosed lv G res.2 ∧
  (res.1 = true ↔ ∃ c ∈ cs, ReachesLeaf lv G c) ∧
  (∀ c ∈ cs, containsKey res.2 c = true) ∧
  (∀ n, containsKey res.2 n = true →
    containsKey lc₀ n = true ∨ ∃ c ∈ cs, LAReach lv G c n) ∧
  (∀ n, containsKey lc₀ n = true → containsKey res.2 n = true)

/-! ## Association-list lemmas -/

theorem lookup_insertKV {β : Type _} (m : List (String × β)) (k : String) (v : β)
    (x : String) :
    lookupKV (insertKV m k v) x = if x = k then some v else lookupKV m x := by
  induction m with
  | nil =>
    by_cases hxk : x = k
    · simp [insertKV, lookupKV, hxk]
    · have hkx : ¬ k = x := fun h => hxk h.symm
      simp [insertKV, lookupKV, hxk, hkx]
  | cons p rest ih =>
    obtain ⟨a, b⟩ := p
    simp only [insertKV]
    by_cases hak : a = k
    · subst hak
      by_cases hxa : x = a
      · subst hxa
        simp [lookupKV]
      · have hax : ¬ a = x := fun h => hxa h.symm
        simp [lookupKV, hax, hxa]
    · simp only [if_neg hak, lookupKV]
      by_cases hax : a = x
      · subst hax
        simp [hak]
      · simp [hax, ih]

theorem containsKey_insertKV {β : Type _} (m : List (String × β)) (k : String)
    (v : β) (x : String) :
    containsKey (insertKV m k v) x = true ↔ x = k ∨ containsKey m x = true := by
  unfold containsKey
  rw [lookup_insertKV]
  by_cases hxk : x = k <;> simp [hxk]

theorem containsKey_of_lookup {β : Type _} {m : List (String × β)} {k : String}
    {v : β} (h : lookupKV m k = some v) : containsKey m k = true := by
  unfold containsKey; rw [h]; rfl

theorem lookup_of_containsKey {β : Type _} {m : List (String × β)} {k : String}
    (h : containsKey m k = true) : ∃ v, lookupKV m k = some v := by
  unfold containsKey at h
  cases hl : lookupKV m k with
  | none => rw [hl] at h; cases h
  | some v => exact ⟨v, rfl⟩

theorem containsKey_removeKV {β : Type _} (m : List (String × β)) (k x : String)
    (h : containsKey (removeKV m k).2 x = true) : containsKey m x = true := by
  induction m with
  | nil => simpa [removeKV] using h
  | cons p rest ih =>
    obtain ⟨a, b⟩ := p
    by_cases hak : a = k
    · simp only [removeKV, if_pos hak] at h
      unfold containsKey lookupKV
      by_cases hax : a = x
      · simp [hax]
      · simpa [hax] using h
    · simp only [removeKV, if_neg hak] at h
      unfold containsKey lookupKV at h ⊢
      by_cases hax : a = x
      · simp [hax]
      · simp only [if_neg hax] at h ⊢
        exact ih h

theorem keysOf_removeKV_sublist {β : Type _} (m : List (String × β)) (k : String) :
    (keysOf (removeKV m k).2).Sublist (keysOf m) := by
  induction m with
  | nil => simp [removeKV, keysOf]
  | cons p rest ih =>
    obtain ⟨a, b⟩ := p
    by_cases hak : a = k
    · simp only [removeKV, if_pos hak, keysOf, List.map_cons]
      exact (List.sublist_cons_self a _)
    · simp only [removeKV, if_neg hak, keysOf, List.map_cons]
      exact (ih).cons₂ a

theorem mem_keysOf_of_lookup {β : Type _} {m : List (String × β)} {k : String}
    {v : β} (h : lookupKV m k = some v) : k ∈ keysOf m := by
  induction m with
  | nil => simp [lookupKV] at h
  | cons p rest ih =>
    obtain ⟨a, b⟩ := p
    by_cases hak : a = k
    · simp [keysOf, hak]
    · simp only [lookupKV, if_neg hak] at h
      simp [keysOf]
      right
      simpa [keysOf] using ih h

theorem containsKey_removeKV_ne {β : Type _} (m : List (String × β)) (k x : String)
    (hnd : (keysOf m).Nodup) (h : containsKey (removeKV m k).2 x = true) : x ≠ k := by
  induction m with
  | nil => simp [removeKV, containsKey, lookupKV] at h
  | cons p rest ih =>
    obtain ⟨a, b⟩ := p
    simp only [keysOf, List.map_cons, List.nodup_cons] at hnd
    by_cases hak : a = k
    · subst hak
      simp only [removeKV, if_pos rfl] at h
      intro hxk
      subst hxk
      obtain ⟨v, hv⟩ := lookup_of_containsKey h
      exact hnd.1 (by simpa [keysOf] using mem_keysOf_of_lookup hv)
    · simp only [removeKV, if_neg hak] at h
      unfold containsKey lookupKV at h
      by_cases hax : a = x
      · subst hax
        intro hxk; exact hak hxk
      · simp only [if_neg hax] at h
        exact ih hnd.2 h

theorem lookup_eq_none_of_not_mem {β : Type _} {m : List (String × β)} {k : String}
    (h : k ∉ keysOf m) : lookupKV m k = none := by
  cases hl : lookupKV m k with
  | none => rfl
  | some v => exact absurd (mem_keysOf_of_lookup hl) h

/-! ## Lemmas about the retain phase -/

theorem retainMap_nil (lc : Memo) (root : String) : retainMap [] lc root = [] := rfl

theorem lookup_retainMap_kept {m : NodeMap} {lc : Memo} {root x : String}
    {cs : List String} (hm : lookupKV m x = some cs)
    (hp : x = root ∨ lookupKV lc x = some true) :
    lookupKV (retainMap m lc root) x =
      some (cs.filter fun c => x = root ∨ lookupKV lc c = some true) := by
  induction m with
  | nil => simp [lookupKV] at hm
  | cons p rest ih =>
    obtain ⟨a, b⟩ := p
    by_cases hax : a = x
    · subst hax
      simp only [lookupKV, if_pos rfl] at hm
      cases hm
      simp only [retainMap, List.filterMap_cons, if_pos hp]
      simp [lookupKV]
    · simp only [lookupKV, if_neg hax] at hm
      simp only [retainMap, List.filterMap_cons] at ih ⊢
      by_cases hpa : a = root ∨ lookupKV lc a = some true
      · simp only [if_pos hpa, lookupKV, if_neg hax]
        exact ih hm
      · simp only [if_neg hpa]
        exact ih hm

theorem lookup_retainMap_none {m : NodeMap} {lc : Memo} {root x : String}
    (hm : lookupKV m x = none) :
    lookupKV (retainMap m lc root) x = none := by
  induction m with
  | nil => simp [retainMap, lookupKV]
  | cons p rest ih =>
    obtain ⟨a, b⟩ := p
    by_cases hax : a = x
    · simp [lookupKV, hax] at hm
    · simp only [lookupKV, if_neg hax] at hm
      simp only [retainMap, List.filterMap_cons] at ih ⊢
      by_cases hpa : a = root ∨ lookupKV lc a = some true
      · simp only [if_pos hpa, lookupKV, if_neg hax]
        exact ih hm
      · simp only [if_neg hpa]
        exact ih hm

theorem lookup_retainMap_dropped {m : NodeMap} {lc : Memo} {root x : String}
    (hnd : (keysOf m).Nodup)
    (hp : ¬ (x = root ∨ lookupKV lc x = some true)) :
    lookupKV (retainMap m lc root) x = none := by
  induction m with
  | nil => simp [retainMap, lookupKV]
  | cons p rest ih =>
    obtain ⟨a, b⟩ := p
    simp only [keysOf, List.map_cons, List.nodup_cons] at hnd
    by_cases hax : a = x
    · subst hax
      simp only [retainMap, List.filterMap_cons, if_neg hp]
      have : lookupKV rest a = none :=
        lookup_eq_none_of_not_mem (by simpa [keysOf] using hnd.1)
      simpa [retainMap] using lookup_retainMap_none this
    · simp only [retainMap, List.filterMap_cons] at ih ⊢
      by_cases hpa : a = root ∨ lookupKV lc a = some true
      · simp only [if_pos hpa, lookupKV, if_neg hax]
        exact ih hnd.2
      · simp only [if_neg hpa]
        exact ih hnd.2

theorem keysOf_retainMap_sublist (m : NodeMap) (lc : Memo) (root : String) :
    (keysOf (retainMap m lc root)).Sublist (keysOf m) := by
  induction m with
  | nil => simp [retainMap, keysOf]
  | cons p rest ih =>
    obtain ⟨a, b⟩ := p
    simp only [retainMap, List.filterMap_cons, keysOf, List.map_cons] at ih ⊢
    by_cases hpa : a = root ∨ lookupKV lc a = some true
    · simp only [if_pos hpa, List.map_cons]
      exact ih.cons₂ a
    · simp only [if_neg hpa]
      exact ih.cons a

theorem mem_retainMap {m : NodeMap} {lc : Memo} {root n : String}
    {cs : List String} (h : (n, cs) ∈ retainMap m lc root) :
    ∃ cs0, (n, cs0) ∈ m ∧ (n = root ∨ lookupKV lc n = some true) ∧
      cs = cs0.filter fun c => n = root ∨ lookupKV lc c = some true := by
  unfold retainMap at h
  obtain ⟨⟨a, b⟩, hmem, hfn⟩ := List.mem_filterMap.mp h
  by_cases hpa : a = root ∨ lookupKV lc a = some true
  · simp only [if_pos hpa] at hfn
    obtain ⟨h1, h2⟩ := Prod.mk.injEq .. ▸ Option.some.inj hfn
    subst h1
    exact ⟨b, hmem, hpa, h2.symm⟩
  · simp [if_neg hpa] at hfn

/-! ## Lemmas about the reachability predicates -/

theorem laReach_head {lv : List String} {G : NodeMap} {t c n : String}
    {cs : List String} (h : LAReach lv G c n) (ht : t ∉ lv)
    (hG : lookupKV G t = some cs) (hc : c ∈ cs) : LAReach lv G t n := by
  induction h with
  | refl => exact LAReach.step LAReach.refl ht hG hc
  | step _ hm hG' hc' ih => exact LAReach.step ih hm hG' hc'

theorem noReachesLeaf_nil {G : NodeMap} {n : String} : ¬ ReachesLeaf [] G n := by
  intro h
  induction h with
  | leaf hm => simp at hm
  | step _ _ _ ih => exact ih

theorem memo_covers_LA {lv : List String} {G : NodeMap} {lc : Memo} {s : String}
    (hs : containsKey lc s = true) (hC : MemoClosed lv G lc) :
    ∀ n, LAReach lv G s n → containsKey lc n = true := by
  intro n h
  induction h with
  | refl => exact hs
  | step _ hm hG hc ih => exact hC _ ih hm _ hG _ hc

/-! ## Correctness of the memoized leaf search -/

theorem linksFold_spec (lv : List String) (G : NodeMap)
    (f : String → Memo → Option (Bool × Memo))
    (hf : ∀ c lc res, f c lc = some res → MemoValid lv G lc → MemoClosed lv G lc →
      LinksConcl lv G c lc res) :
    ∀ cs lc₀ res, linksFold f cs lc₀ = some res →
      MemoValid lv G lc₀ → MemoClosed lv G lc₀ → FoldConcl lv G cs lc₀ res := by
  intro cs
  induction cs with
  | nil =>
    intro lc₀ res h hV hC
    simp only [linksFold] at h
    cases h
    exact ⟨hV, hC, by simp, by simp, fun n hn => Or.inl hn, fun n hn => hn⟩
  | cons c rest ih =>
    intro lc₀ res h hV hC
    simp only [linksFold] at h
    cases h1 : f c lc₀ with
    | none => rw [h1] at h; cases h
    | some pr1 =>
      rw [h1] at h
      obtain ⟨b1, lc1⟩ := pr1
      cases h2 : linksFold f rest lc1 with
      | none => simp only [h2] at h; cases h
      | some pr2 =>
        simp only [h2] at h
        obtain ⟨b2, lc2⟩ := pr2
        cases h
        obtain ⟨hV1, hC1, hiff1, hlook1, hprov1, hmono1⟩ := hf c lc₀ (b1, lc1) h1 hV hC
        obtain ⟨hV2, hC2, hiff2, hmem2, hprov2, hmono2⟩ := ih lc1 (b2, lc2) h2 hV1 hC1
        refine ⟨hV2, hC2, ?_, ?_, ?_, ?_⟩
        · constructor
          · intro hor
            rcases Bool.or_eq_true_iff.mp hor with hb | hb
            · exact ⟨c, by simp, hiff1.mp hb⟩
            · obtain ⟨d, hd, hr⟩ := hiff2.mp hb
              exact ⟨d, by simp [hd], hr⟩
          · rintro ⟨d, hd, hr⟩
            rcases List.mem_cons.mp hd with hd | hd
            · subst hd
              exact Bool.or_eq_true_iff.mpr (Or.inl (hiff1.mpr hr))
            · exact Bool.or_eq_true_iff.mpr (Or.inr (hiff2.mpr ⟨d, hd, hr⟩))
        · intro d hd
          rcases List.mem_cons.mp hd with hd | hd
          · subst hd
            exact hmono2 _ (containsKey_of_lookup hlook1)
          · exact hmem2 d hd
        · intro n hn
          rcases hprov2 n hn with hn1 | ⟨d, hd, hla⟩
          · rcases hprov1 n hn1 with hn0 | hla
            · exact Or.inl hn0
            · exact Or.inr ⟨c, by simp, hla⟩
          · exact Or.inr ⟨d, by simp [hd], hla⟩
        · intro n hn
          exact hmono2 _ (hmono1 _ hn)

theorem linksToALeaf_spec (lv : List String) (G : NodeMap) :
    ∀ fuel t lc₀ res, linksToALeaf fuel t lv lc₀ G = some res →
      MemoValid lv G lc₀ → MemoClosed lv G lc₀ → LinksConcl lv G t lc₀ res := by
  intro fuel
  induction fuel with
  | zero => intro t lc₀ res h; simp [linksToALeaf] at h
  | succ fuel ih =>
    intro t lc₀ res h hV hC
    simp only [linksToALeaf] at h
    split at h
    · rename_i b hm
      cases h
      exact ⟨hV, hC, hV t b hm, hm, fun n hn => Or.inl hn, fun n hn => hn⟩
    · rename_i hm
      split at h
      · rename_i hlv
        cases h
        refine ⟨?_, ?_, by simp [ReachesLeaf.leaf hlv], ?_, ?_, ?_⟩
        · intro n b hn
          rw [lookup_insertKV] at hn
          by_cases hnt : n = t
          · rw [if_pos hnt] at hn
            cases hn
            subst hnt
            simp [ReachesLeaf.leaf hlv]
          · rw [if_neg hnt] at hn
            exact hV n b hn
        · intro n hn hnlv cs hcs c hc
          have hn' : containsKey lc₀ n = true := by
            rcases (containsKey_insertKV lc₀ t true n).mp hn with hnt | hn'
            · exact absurd (hnt ▸ hlv) hnlv
            · exact hn'
          exact (containsKey_insertKV lc₀ t true c).mpr
            (Or.inr (hC n hn' hnlv cs hcs c hc))
        · simp [lookup_insertKV]
        · intro n hn
          rcases (containsKey_insertKV lc₀ t true n).mp hn with hnt | hn'
          · exact Or.inr (hnt ▸ LAReach.refl)
          · exact Or.inl hn'
        · intro n hn
          exact (containsKey_insertKV lc₀ t true n).mpr (Or.inr hn)
      · rename_i hlv
        split at h
        · rename_i hG
          cases h
          have hnr : ¬ ReachesLeaf lv G t := by
            intro hr
            cases hr with
            | leaf hm' => exact hlv hm'
            | step hG' _ _ => rw [hG] at hG'; cases hG'
          refine ⟨?_, ?_, by simp [hnr], ?_, ?_, ?_⟩
          · intro n b hn
            rw [lookup_insertKV] at hn
            by_cases hnt : n = t
            · rw [if_pos hnt] at hn
              cases hn
              subst hnt
              simp [hnr]
            · rw [if_neg hnt] at hn
              exact hV n b hn
          · intro n hn hnlv cs hcs c hc
            by_cases hnt : n = t
            · subst hnt
              rw [hG] at hcs; cases hcs
            · have hn' : containsKey lc₀ n = true := by
                rcases (containsKey_insertKV lc₀ t false n).mp hn with h' | h'
                · exact absurd h' hnt
                · exact h'
              exact (containsKey_insertKV lc₀ t false c).mpr
                (Or.inr (hC n hn' hnlv cs hcs c hc))
          · simp [lookup_insertKV]
          · intro n hn
            rcases (containsKey_insertKV lc₀ t false n).mp hn with hnt | hn'
            · exact Or.inr (hnt ▸ LAReach.refl)
            · exact Or.inl hn'
          · intro n hn
            exact (containsKey_insertKV lc₀ t false n).mpr (Or.inr hn)
        · rename_i outs hG
          split at h
          · cases h
          · rename_i b lc1 hfold
            cases h
            have hff : ∀ c lc res, linksToALeaf fuel c lv lc G = some res →
                MemoValid lv G lc → MemoClosed lv G lc → LinksConcl lv G c lc res :=
              fun c lc res hr => ih c lc res hr
            obtain ⟨hV1, hC1, hiff1, hmem1, hprov1, hmono1⟩ :=
              linksFold_spec lv G _ hff outs lc₀ (b, lc1) hfold hV hC
            have hbt : b = true ↔ ReachesLeaf lv G t := by
              constructor
              · intro hb
                obtain ⟨c, hc, hr⟩ := hiff1.mp hb
                exact ReachesLeaf.step hG hc hr
              · intro hr
                cases hr with
                | leaf hm' => exact absurd hm' hlv
                | step hG' hc hr' =>
                  rw [hG] at hG'
                  cases hG'
                  exact hiff1.mpr ⟨_, hc, hr'⟩
            refine ⟨?_, ?_, hbt, ?_, ?_, ?_⟩
            · intro n b' hn
              rw [lookup_insertKV] at hn
              by_cases hnt : n = t
              · rw [if_pos hnt] at hn
                cases hn
                subst hnt
                exact hbt
              · rw [if_neg hnt] at hn
                exact hV1 n b' hn
            · intro n hn hnlv cs hcs c hc
              by_cases hnt : n = t
              · subst hnt
                rw [hG] at hcs
                cases hcs
                exact (containsKey_insertKV lc1 _ b c).mpr (Or.inr (hmem1 c hc))
              · have hn' : containsKey lc1 n = true := by
                  rcases (containsKey_insertKV lc1 t b n).mp hn with h' | h'
                  · exact absurd h' hnt
                  · exact h'
                exact (containsKey_insertKV lc1 t b c).mpr
                  (Or.inr (hC1 n hn' hnlv cs hcs c hc))
            · simp [lookup_insertKV]
            · intro n hn
              rcases (containsKey_insertKV lc1 t b n).mp hn with hnt | hn'
              · exact Or.inr (hnt ▸ LAReach.refl)
              · rcases hprov1 n hn' with hn0 | ⟨c, hc, hla⟩
                · exact Or.inl hn0
                · exact Or.inr (laReach_head hla hlv hG hc)
            · intro n hn
              exact (containsKey_insertKV lc1 t b n).mpr (Or.inr (hmono1 n hn))

theorem memoValid_nil (lv : List String) (G : NodeMap) : MemoValid lv G [] := by
  intro n b h
  simp [lookupKV] at h

theorem memoClosed_nil (lv : List String) (G : NodeMap) : MemoClosed lv G [] := by
  intro n h
  simp [containsKey, lookupKV] at h

theorem reduce_transforms_elim {f : Nat} {root : String} {lv : List String}
    {G G' : NodeMap} (h : reduce_transforms f root lv G = some G') :
    ∃ rb lc, linksToALeaf f root lv [] G = some (rb, lc) ∧
      G' = retainMap (if rb then G else []) lc root := by
  unfold reduce_transforms at h
  split at h
  · cases h
  · rename_i rb lc heq
    cases h
    exact ⟨rb, lc, heq, rfl⟩

theorem containsKey_retainMap {m : NodeMap} {lc : Memo} {root x : String}
    (hnd : (keysOf m).Nodup) :
    containsKey (retainMap m lc root) x = true ↔
      containsKey m x = true ∧ (x = root ∨ lookupKV lc x = some true) := by
  constructor
  · intro h
    obtain ⟨v, hv⟩ := lookup_of_containsKey h
    cases hm : lookupKV m x with
    | none => rw [lookup_retainMap_none hm] at hv; cases hv
    | some cs =>
      refine ⟨containsKey_of_lookup hm, ?_⟩
      by_cases hp : x = root ∨ lookupKV lc x = some true
      · exact hp
      · rw [lookup_retainMap_dropped hnd hp] at hv; cases hv
  · rintro ⟨hm, hp⟩
    obtain ⟨cs, hcs⟩ := lookup_of_containsKey hm
    exact containsKey_of_lookup (lookup_retainMap_kept hcs hp)

/-- C4 (amended): when the reduction terminates, the retained keys are
exactly the root together with the nodes of `G` that are reachable from
the root WITHOUT passing through a leaf and that reach a leaf; and if the
root reaches no leaf the map is cleared. -/
theorem c4_reduce_exact (f : Nat) (root : String) (lv : List String)
    (G G' : NodeMap) (hnd : (keysOf G).Nodup)
    (_hroot : containsKey G root = true)
    (h : reduce_transforms f root lv G = some G') :
    (¬ ReachesLeaf lv G root → G' = []) ∧
    (ReachesLeaf lv G root → ∀ n, containsKey G' n = true ↔
      (containsKey G n = true ∧
        (n = root ∨ (LAReach lv G root n ∧ ReachesLeaf lv G n)))) := by
  obtain ⟨rb, lc, hl, hG'⟩ := reduce_transforms_elim h
  obtain ⟨hV, hC, hiff, hlook, hprov, _⟩ :=
    linksToALeaf_spec lv G f root [] (rb, lc) hl (memoValid_nil lv G) (memoClosed_nil lv G)
  constructor
  · intro hnr
    have hrb : rb = false := by
      cases rb
      · rfl
      · exact absurd (hiff.mp rfl) hnr
    rw [hG', hrb]
    simp [retainMap_nil]
  · intro hr n
    have hrb : rb = true := hiff.mpr hr
    rw [hG', hrb]
    simp only [if_pos rfl, ite_true]
    constructor
    · intro hn
      obtain ⟨hmG, hpred⟩ := (containsKey_retainMap hnd).mp hn
      refine ⟨hmG, ?_⟩
      rcases hpred with hroot' | hlc
      · exact Or.inl hroot'
      · have hcn : containsKey lc n = true := containsKey_of_lookup hlc
        rcases hprov n hcn with h0 | hla
        · simp [containsKey, lookupKV] at h0
        · exact Or.inr ⟨hla, (hV n true hlc).mp rfl⟩
    · rintro ⟨hmG, hcase⟩
      apply (containsKey_retainMap hnd).mpr
      refine ⟨hmG, ?_⟩
      rcases hcase with hroot' | ⟨hla, hrl⟩
      · exact Or.inl hroot'
      · right
        have hcn : containsKey lc n = true :=
          memo_covers_LA (containsKey_of_lookup hlook) hC n hla
        obtain ⟨b, hb⟩ := lookup_of_containsKey hcn
        have hb' : b = true := (hV n b hb).mpr hrl
        rw [hb'] at hb
        exact hb

/-- C4 (counterexample): in `A → B → X` with leaves `{B, X}`, the node `X`
lies on the path `A → B → X` from the root to the leaf `X` and is a key of
the graph, yet the reduction drops it (the search stops at the leaf `B`),
so the retained keys are NOT all the nodes on root→leaf paths. -/
theorem c4_counterexample :
    reduce_transforms 9 "A" ["B", "X"] ceG = some [("A", ["B"]), ("B", [])] ∧
    Reachable ceG "A" "X" ∧ ReachesLeaf ["B", "X"] ceG "X" ∧
    containsKey ceG "X" = true ∧
    containsKey [("A", ["B"]), ("B", [])] "X" = false := by
  refine ⟨by decide, ?_, ?_, by decide, by decide⟩
  · have h1 : Reachable ceG "A" "B" :=
      @Reachable.step ceG "A" "A" ["B"] "B" Reachable.refl (by decide) (by simp)
    exact @Reachable.step ceG "A" "B" ["X"] "X" h1 (by decide) (by simp)
  · exact ReachesLeaf.leaf (by simp)

/-- Witness for `c4_reduce_exact` at the linear pipeline `A → B → C`. -/
theorem c4_reduce_exact_witness :
    ((keysOf linearTouts).Nodup ∧ containsKey linearTouts "A" = true ∧
      reduce_transforms 9 "A" ["C"] linearTouts = some linearTouts) ∧
    ((¬ ReachesLeaf ["C"] linearTouts "A" → linearTouts = []) ∧
      (ReachesLeaf ["C"] linearTouts "A" → ∀ n, containsKey linearTouts n = true ↔
        (containsKey linearTouts n = true ∧
          (n = "A" ∨ (LAReach ["C"] linearTouts "A" n ∧ ReachesLeaf ["C"] linearTouts n))))) :=
  ⟨⟨by decide, by decide, by decide⟩,
    c4_reduce_exact 9 "A" ["C"] linearTouts linearTouts (by decide) (by decide) (by decide)⟩

/-- C5: on the self-loop `T → T` the memoized search never terminates,
whatever the fuel: the memo is seeded only after the recursive calls, so
the node under evaluation recurses into itself with an unchanged table. -/
theorem c5_self_loop_diverges :
    ∀ fuel, reduce_transforms fuel "T" [] loopG = none := by
  have haux : ∀ fuel, linksToALeaf fuel "T" [] [] loopG = none := by
    intro fuel
    induction fuel with
    | zero => rfl
    | succ fuel ih =>
      have ih' : linksToALeaf fuel "T" [] [] [("T", ["T"])] = none := by
        simpa [loopG] using ih
      simp [linksToALeaf, linksFold, lookupKV, loopG, ih']
  intro fuel
  unfold reduce_transforms
  rw [haux fuel]

/-! ## Survival of reachability under the retain phase (for idempotence) -/

theorem laReach_survives {lv : List String} {G : NodeMap} {lc : Memo} {root : String}
    (hV : MemoValid lv G lc)
    (hcov : ∀ n, LAReach lv G root n → containsKey lc n = true) :
    ∀ n, LAReach lv G root n → ReachesLeaf lv G n →
      LAReach lv (retainMap G lc root) root n := by
  intro n hla
  induction hla with
  | refl => intro _; exact LAReach.refl
  | step hm hmlv hGm hc ih =>
    rename_i m cs c
    intro hrlc
    have hrlm : ReachesLeaf lv G m := ReachesLeaf.step hGm hc hrlc
    have ihm := ih hrlm
    have hpm : m = root ∨ lookupKV lc m = some true := by
      by_cases hmr : m = root
      · exact Or.inl hmr
      · right
        obtain ⟨b, hb⟩ := lookup_of_containsKey (hcov m hm)
        have hbt : b = true := (hV m b hb).mpr hrlm
        rw [hbt] at hb
        exact hb
    have hGm' := lookup_retainMap_kept hGm hpm
    have hcf : c ∈ cs.filter (fun d => m = root ∨ lookupKV lc d = some true) := by
      apply List.mem_filter.mpr
      refine ⟨hc, ?_⟩
      by_cases hmr : m = root
      · simp [hmr]
      · have hlac : LAReach lv G root c := LAReach.step hm hmlv hGm hc
        obtain ⟨b, hb⟩ := lookup_of_containsKey (hcov c hlac)
        have hbt : b = true := (hV c b hb).mpr hrlc
        rw [hbt] at hb
        simp [hb]
    exact LAReach.step ihm hmlv hGm' hcf

theorem reachesLeaf_survives {lv : List String} {G : NodeMap} {lc : Memo} {root : String}
    (hV : MemoValid lv G lc)
    (hcov : ∀ n, LAReach lv G root n → containsKey lc n = true) :
    ∀ n, ReachesLeaf lv G n → LAReach lv G root n →
      ReachesLeaf lv (retainMap G lc root) n := by
  intro n hrl
  induction hrl with
  | leaf hm => intro _; exact ReachesLeaf.leaf hm
  | step hGn hc hrlc ih =>
    rename_i n' cs c
    intro hlan
    by_cases hnlv : n' ∈ lv
    · exact ReachesLeaf.leaf hnlv
    · have hlac : LAReach lv G root c := LAReach.step hlan hnlv hGn hc
      have ihc := ih hlac
      have hrln : ReachesLeaf lv G n' := ReachesLeaf.step hGn hc hrlc
      have hpn : n' = root ∨ lookupKV lc n' = some true := by
        by_cases hnr : n' = root
        · exact Or.inl hnr
        · right
          obtain ⟨b, hb⟩ := lookup_of_containsKey (hcov n' hlan)
          have hbt : b = true := (hV n' b hb).mpr hrln
          rw [hbt] at hb
          exact hb
      have hGn' := lookup_retainMap_kept hGn hpn
      have hcf : c ∈ cs.filter (fun d => n' = root ∨ lookupKV lc d = some true) := by
        apply List.mem_filter.mpr
        refine ⟨hc, ?_⟩
        by_cases hnr : n' = root
        · simp [hnr]
        · obtain ⟨b, hb⟩ := lookup_of_containsKey (hcov c hlac)
          have hbt : b = true := (hV c b hb).mpr hrlc
          rw [hbt] at hb
          simp [hb]
      exact ReachesLeaf.step hGn' hcf ihc

theorem retainMap_eq_self {m : NodeMap} {lc : Memo} {root : String}
    (h : ∀ p ∈ m, (p.1 = root ∨ lookupKV lc p.1 = some true) ∧
      p.2.filter (fun c => p.1 = root ∨ lookupKV lc c = some true) = p.2) :
    retainMap m lc root = m := by
  induction m with
  | nil => rfl
  | cons p rest ih =>
    obtain ⟨hp1, hp2⟩ := h p (by simp)
    simp only [retainMap, List.filterMap_cons, if_pos hp1]
    have ih' := ih fun q hq => h q (by simp [hq])
    simp only [retainMap] at ih'
    rw [ih', hp2]

/-- C9: reducing an already-reduced graph with the same root and leaves
leaves it unchanged. -/
theorem c9_reduce_idempotent (f f' : Nat) (root : String) (lv : List String)
    (G G1 G2 : NodeMap)
    (h1 : reduce_transforms f root lv G = some G1)
    (h2 : reduce_transforms f' root lv G1 = some G2) : G2 = G1 := by
  obtain ⟨rb, lc, hl, hG1⟩ := reduce_transforms_elim h1
  obtain ⟨hV, hC, hiff, hlook, hprov, _⟩ :=
    linksToALeaf_spec lv G f root [] (rb, lc) hl (memoValid_nil lv G) (memoClosed_nil lv G)
  cases rb with
  | false =>
    have hG1' : G1 = [] := by rw [hG1]; simp [retainMap_nil]
    subst hG1'
    obtain ⟨rb', lc', hl', hG2⟩ := reduce_transforms_elim h2
    rw [hG2]
    cases rb' <;> simp [retainMap_nil]
  | true =>
    have hG1' : G1 = retainMap G lc root := by rw [hG1]; simp
    have hrlroot : ReachesLeaf lv G root := hiff.mp rfl
    have hcov : ∀ n, LAReach lv G root n → containsKey lc n = true :=
      memo_covers_LA (containsKey_of_lookup hlook) hC
    have hprovLA : ∀ n, containsKey lc n = true → LAReach lv G root n := by
      intro n hn
      rcases hprov n hn with h0 | h
      · simp [containsKey, lookupKV] at h0
      · exact h
    obtain ⟨rb', lc', hl', hG2⟩ := reduce_transforms_elim h2
    obtain ⟨hV', hC', hiff', hlook', hprov1', _⟩ :=
      linksToALeaf_spec lv G1 f' root [] (rb', lc') hl'
        (memoValid_nil lv G1) (memoClosed_nil lv G1)
    have hrl1 : ReachesLeaf lv G1 root := by
      rw [hG1']
      exact reachesLeaf_survives hV hcov root hrlroot LAReach.refl
    have hrb' : rb' = true := hiff'.mpr hrl1
    subst hrb'
    have hcov' : ∀ n, LAReach lv G1 root n → containsKey lc' n = true :=
      memo_covers_LA (containsKey_of_lookup hlook') hC'
    rw [hG2]
    simp only [ite_true]
    apply retainMap_eq_self
    rintro ⟨n, cs⟩ hmem
    obtain ⟨cs0, hmem0, hpred, hcs⟩ := mem_retainMap (hG1' ▸ hmem)
    -- the second-run memo entry of a retained non-root node is `true`
    have hkey : ∀ x, lookupKV lc x = some true → lookupKV lc' x = some true := by
      intro x hx
      have hlaG : LAReach lv G root x := hprovLA x (containsKey_of_lookup hx)
      have hrlG : ReachesLeaf lv G x := (hV x true hx).mp rfl
      have hla1 : LAReach lv G1 root x := by
        rw [hG1']
        exact laReach_survives hV hcov x hlaG hrlG
      have hrl1x : ReachesLeaf lv G1 x := by
        rw [hG1']
        exact reachesLeaf_survives hV hcov x hrlG hlaG
      obtain ⟨b, hb⟩ := lookup_of_containsKey (hcov' x hla1)
      have hbt : b = true := (hV' x b hb).mpr hrl1x
      rw [hbt] at hb
      exact hb
    constructor
    · rcases hpred with hroot' | hlc
      · exact Or.inl hroot'
      · exact Or.inr (hkey n hlc)
    · apply List.filter_eq_self.mpr
      intro c hc
      by_cases hnr : n = root
      · simp [hnr]
      · subst hcs
        have hcl : lookupKV lc c = some true := by
          have := (List.mem_filter.mp hc).2
          simp only [decide_eq_true_eq] at this
          rcases this with h' | h'
          · exact absurd h' hnr
          · exact h'
        simp [hkey c hcl]

/-- Witness for `c9_reduce_idempotent`: reducing `A → {B, X}, B → C` with
leaves `{C}` prunes `X` (leaving the dangling root edge `A → X`), and a
second reduction of the result changes nothing. -/
theorem c9_reduce_idempotent_witness :
    (reduce_transforms 9 "A" ["C"] diamondG = some diamondG' ∧
      reduce_transforms 9 "A" ["C"] diamondG' = some diamondG') ∧
    diamondG' = diamondG' :=
  ⟨⟨by decide, by decide⟩,
    c9_reduce_idempotent 9 9 "A" ["C"] diamondG diamondG' diamondG'
      (by decide) (by decide)⟩

/-! ## Structure of successfully compiled unit tests -/

theorem keysOf_insertKV_of_contains {β : Type _} (m : List (String × β))
    (k : String) (v : β) (h : containsKey m k = true) :
    keysOf (insertKV m k v) = keysOf m := by
  induction m with
  | nil => simp [containsKey, lookupKV] at h
  | cons p rest ih =>
    obtain ⟨a, b⟩ := p
    by_cases hak : a = k
    · simp [insertKV, hak, keysOf]
    · simp only [containsKey, lookupKV, if_neg hak] at h
      simp [insertKV, hak, keysOf]
      simpa [keysOf] using ih h

theorem addEdges_keys (k : String) :
    ∀ (is : List String) (m : NodeMap), keysOf (addEdges k is m) = keysOf m := by
  intro is
  induction is with
  | nil => intro m; rfl
  | cons i rest ih =>
    intro m
    simp only [addEdges]
    cases hl : lookupKV m i with
    | none => exact ih m
    | some outs =>
      rw [ih (insertKV m i (insertSet outs k))]
      exact keysOf_insertKV_of_contains m i _ (containsKey_of_lookup hl)

theorem buildAdjacency_keys :
    ∀ (cfgs : List (String × TransformConfigM)) (m : NodeMap),
      keysOf (buildAdjacency cfgs m) = keysOf m := by
  intro cfgs
  induction cfgs with
  | nil => intro m; rfl
  | cons p rest ih =>
    intro m
    obtain ⟨k, tc⟩ := p
    simp only [buildAdjacency]
    rw [ih, addEdges_keys]

theorem removeKV_fst_none {β : Type _} {m : List (String × β)} {k : String}
    (h : (removeKV m k).1 = none) : containsKey m k = false := by
  induction m with
  | nil => rfl
  | cons p rest ih =>
    obtain ⟨a, b⟩ := p
    by_cases hak : a = k
    · simp [removeKV, hak] at h
    · simp only [removeKV, if_neg hak] at h
      simp only [containsKey, lookupKV, if_neg hak]
      exact ih h

theorem buildTransforms_drained :
    ∀ (cfgs : List (String × TransformConfigM)) (touts : NodeMap)
      (trs : List (String × UnitTestTransform)) (errs : List String),
      (∀ x, containsKey touts x = true → x ∈ cfgs.map Prod.fst) →
      (keysOf touts).Nodup →
      ∀ x, containsKey (buildTransforms cfgs touts trs errs).1 x = false := by
  intro cfgs
  induction cfgs with
  | nil =>
    intro touts trs errs hsub _ x
    simp only [buildTransforms]
    cases hc : containsKey touts x
    · rfl
    · exact absurd (hsub x hc) (by simp)
  | cons p rest ih =>
    intro touts trs errs hsub hnd x
    obtain ⟨k, tc⟩ := p
    simp only [buildTransforms]
    split
    · rename_i outs touts' heq
      have htouts' : touts' = (removeKV touts k).2 := by rw [heq]
      have hsub' : ∀ y, containsKey touts' y = true → y ∈ rest.map Prod.fst := by
        intro y hy
        rw [htouts'] at hy
        have hmem := hsub y (containsKey_removeKV touts k y hy)
        have hne := containsKey_removeKV_ne touts k y hnd hy
        simpa [hne] using hmem
      have hnd' : (keysOf touts').Nodup := by
        rw [htouts']
        exact (keysOf_removeKV_sublist touts k).nodup hnd
      split
      · exact ih touts' _ _ hsub' hnd' x
      · exact ih touts' _ _ hsub' hnd' x
    · rename_i heq
      have hknone : containsKey touts k = false :=
        removeKV_fst_none (by rw [heq])
      have hsub' : ∀ y, containsKey touts y = true → y ∈ rest.map Prod.fst := by
        intro y hy
        have hmem := hsub y hy
        have hne : y ≠ k := by
          intro hyk
          rw [hyk, hknone] at hy
          cases hy
        simpa [hne] using hmem
      exact ih touts _ _ hsub' hnd x

theorem buildTransforms_nil_touts :
    ∀ (cfgs : List (String × TransformConfigM))
      (trs : List (String × UnitTestTransform)) (errs : List String),
      buildTransforms cfgs [] trs errs = ([], trs, errs) := by
  intro cfgs
  induction cfgs with
  | nil => intro trs errs; rfl
  | cons p rest ih =>
    intro trs errs
    obtain ⟨k, tc⟩ := p
    simp only [buildTransforms, removeKV]
    exact ih trs errs

theorem topoErrors_all_missing (ia : String) (touts : NodeMap) :
    ∀ outs : List TestOutput,
      (∀ o ∈ outs, containsKey touts o.extract_from = false) →
      topoErrors ia touts outs = [] → outs = [] := by
  intro outs
  induction outs with
  | nil => intro _ _; rfl
  | cons o rest _ =>
    intro hmiss h
    simp [topoErrors, hmiss o (by simp)] at h

theorem reduce_no_leaves {f : Nat} {root : String} {G G' : NodeMap}
    (h : reduce_transforms f root [] G = some G') : G' = [] := by
  obtain ⟨rb, lc, hl, hG'⟩ := reduce_transforms_elim h
  obtain ⟨_, _, hiff, _, _, _⟩ :=
    linksToALeaf_spec [] G f root [] (rb, lc) hl (memoValid_nil [] G) (memoClosed_nil [] G)
  have hrb : rb = false := by
    cases rb
    · rfl
    · exact absurd (hiff.mp rfl) noReachesLeaf_nil
  rw [hG', hrb]
  simp [retainMap_nil]

/-- C6: on every successfully compiled `UnitTest`, every `next` edge of
every entry of the transforms map points at a retained key (in fact the
drained-map topology check of `build_unit_test` forces every compiling
test to have no outputs, hence an empty transforms map). -/
theorem c6_no_dangling (fuel : Nat) (d : TestDefinition) (config : ConfigM)
    (t : UnitTest) (hnd : (config.transforms.map Prod.fst).Nodup)
    (h : build_unit_test fuel d config = some (Except.ok t)) :
    ∀ p ∈ t.transforms, ∀ c ∈ p.2.next, containsKey t.transforms c = true := by
  unfold build_unit_test at h
  simp only [] at h
  split at h
  · simp at h
  · rename_i hcont
    split at h
    · simp at h
    · rename_i touts2 hred
      split at h
      · simp at h
      · rename_i hbe
        split at h
        · simp at h
        · rename_i hae
          have hkeys1 : keysOf (buildAdjacency config.transforms
              (config.transforms.map fun kt => (kt.1, []))) =
              config.transforms.map Prod.fst := by
            rw [buildAdjacency_keys]
            simp [keysOf]
          have hsub2 : (keysOf touts2).Sublist (config.transforms.map Prod.fst) := by
            obtain ⟨rb, lc, _, hT⟩ := reduce_transforms_elim hred
            rw [hT]
            cases rb
            · simp [retainMap_nil, keysOf]
            · simp only [ite_true]
              rw [← hkeys1]
              exact keysOf_retainMap_sublist _ _ _
          have hsubmem : ∀ x, containsKey touts2 x = true →
              x ∈ config.transforms.map Prod.fst := by
            intro x hx
            obtain ⟨v, hv⟩ := lookup_of_containsKey hx
            exact hsub2.subset (by simpa [keysOf] using mem_keysOf_of_lookup hv)
          have hnd2 : (keysOf touts2).Nodup := hsub2.nodup hnd
          have hdrain := buildTransforms_drained config.transforms touts2 [] [] hsubmem hnd2
          have hsplit := List.append_eq_nil.mp (not_ne_iff.mp hae)
          have htopo := List.append_eq_nil.mp hsplit.1
          have houts : d.outputs = [] :=
            topoErrors_all_missing _ _ d.outputs (fun o _ => hdrain o.extract_from) htopo.1
          have hleaves : leavesOf d.outputs = [] := by rw [houts]; rfl
          rw [hleaves] at hred
          have htouts2 : touts2 = [] := reduce_no_leaves hred
          rw [htouts2, buildTransforms_nil_touts] at h
          cases h
          intro p hp
          simp at hp

/-- Witness for `c6_no_dangling`: the output-less test `dW` compiles
against `cW` into `tW`, whose (empty) transforms map has no dangling
edges. -/
theorem c6_no_dangling_witness :
    ((cW.transforms.map Prod.fst).Nodup ∧
      build_unit_test 5 dW cW = some (Except.ok tW)) ∧
    (∀ p ∈ tW.transforms, ∀ c ∈ p.2.next, containsKey tW.transforms c = true) :=
  ⟨⟨by decide, by rfl⟩, c6_no_dangling 5 dW cW tW (by decide) (by rfl)⟩

/-! ## Evaluations of the compiler and evaluator on the concrete instances -/

/-- C1: the linear pipeline `A → B → C` with `insert_at = A` and
`extract_from = C` does NOT compile: `build_unit_tests` returns the
topology error, because the transform-building loop drains
`transform_outputs` with `remove` before the topology check reads it. -/
theorem c1_linear_pipeline_rejected :
    build_unit_tests 30 linearConfig =
      some (Except.error
        ["Failed to build test 'linear':\nunable to complete topology between input target 'A' and 'C'"]) := by
  rfl

/-- C3: in the same linear pipeline the reduction retains `C` (the whole
chain survives), yet `build_unit_test` still records the
`unable to complete topology` error for the output `C`. -/
theorem c3_topology_error_despite_retained :
    reduce_transforms 30 "A" ["C"] linearTouts = some linearTouts ∧
    containsKey linearTouts "C" = true ∧
    build_unit_test 30 linearDef linearConfig =
      some (Except.error ["unable to complete topology between input target 'A' and 'C'"]) :=
  ⟨by decide, by decide, by rfl⟩

/-- C2: the single event recorded at `A` satisfies no condition of the
check at `A`, yet `run` returns the empty list — the condition-failure
branch of `UnitTest::run` is an empty `// TODO` stub. -/
theorem c2_condition_failures_not_reported :
    walk 5 "A" ["x"] tC2.transforms [] = some [("A", ["x"])] ∧
    (∀ c ∈ tC2.checks, ∀ p ∈ c.conditions, ∀ e ∈ (["x"] : List Event), p.2 e = false) ∧
    UnitTest.run 5 tC2 = some [] := by
  refine ⟨by rfl, ?_, by rfl⟩
  intro c hc p hp e _
  simp only [tC2, List.mem_singleton] at hc
  subst hc
  simp only [List.mem_singleton] at hp
  subst hp
  rfl

/-- C7 (counterexample): the transform at `B` is visited by the walk (its
empty event list is recorded) but emits zero events, and `run` returns no
failure at all — in particular no `expected resulting events` message. -/
theorem c7_counterexample :
    walk 10 "A" ["x"] tC7.transforms [] = some [("B", []), ("A", ["x"])] ∧
    UnitTest.run 10 tC7 = some [] :=
  ⟨by rfl, by rfl⟩

/-! ## The exact semantics of the missing-extraction failure (claim C7) -/

theorem string_data_append (a b : String) : (a ++ b).data = a.data ++ b.data := rfl

theorem expectedMsg_inj {a b : String} (h : expectedMsg a = expectedMsg b) : a = b := by
  obtain ⟨la⟩ := a
  obtain ⟨lb⟩ := b
  unfold expectedMsg at h
  have hd := congrArg String.data h
  simp only [string_data_append] at hd
  rw [List.append_assoc, List.append_assoc] at hd
  have h1 := List.append_cancel_left hd
  have h2 := List.append_cancel_right h1
  exact congrArg String.mk h2

theorem mem_runChecks {checks : List UnitTestCheck} {res : Agg} {msg : String} :
    msg ∈ runChecks checks res ↔
      ∃ c ∈ checks, lookupKV res c.extract_from = none ∧
        msg = expectedMsg c.extract_from := by
  induction checks with
  | nil => simp [runChecks]
  | cons c rest ih =>
    cases hl : lookupKV res c.extract_from with
    | some v =>
      simp only [runChecks, hl]
      constructor
      · intro hm
        obtain ⟨d, hd, h1, h2⟩ := ih.mp hm
        exact ⟨d, by simp [hd], h1, h2⟩
      · rintro ⟨d, hd, h1, h2⟩
        rcases List.mem_cons.mp hd with hdc | hd'
        · subst hdc; rw [hl] at h1; cases h1
        · exact ih.mpr ⟨d, hd', h1, h2⟩
    | none =>
      simp only [runChecks, hl, List.mem_cons]
      constructor
      · intro hm
        rcases hm with hm | hm
        · exact ⟨c, by simp, hl, hm⟩
        · obtain ⟨d, hd, h1, h2⟩ := ih.mp hm
          exact ⟨d, by simp [hd], h1, h2⟩
      · rintro ⟨d, hd, h1, h2⟩
        rcases hd with hdc | hd'
        · subst hdc; exact Or.inl h2
        · exact Or.inr (ih.mpr ⟨d, hd', h1, h2⟩)

theorem run_elim {fuel : Nat} {t : UnitTest} {res : Agg} {errs : List String}
    (hw : walk fuel t.input.1 [t.input.2] t.transforms [] = some res)
    (hr : UnitTest.run fuel t = some errs) : errs = runChecks t.checks res := by
  unfold UnitTest.run at hr
  rw [hw] at hr
  cases hr
  rfl

/-- C7 (amended): `run` emits the `expected resulting events … found none`
failure for a check exactly when the check's `extract_from` was never
visited by the walk (it is absent from the recorded results); a visited
node — even one that emitted zero events — is recorded (possibly with an
empty list) and produces no such failure. -/
theorem c7_found_none_iff_unvisited (fuel : Nat) (t : UnitTest) (res : Agg)
    (errs : List String)
    (hw : walk fuel t.input.1 [t.input.2] t.transforms [] = some res)
    (hr : UnitTest.run fuel t = some errs) :
    (∀ c ∈ t.checks, lookupKV res c.extract_from = none →
      expectedMsg c.extract_from ∈ errs) ∧
    (∀ e, containsKey res e = true → expectedMsg e ∉ errs) := by
  have herrs : errs = runChecks t.checks res := run_elim hw hr
  subst herrs
  constructor
  · intro c hc hnone
    exact mem_runChecks.mpr ⟨c, hc, hnone, rfl⟩
  · intro e he hm
    obtain ⟨d, hd, h1, h2⟩ := mem_runChecks.mp hm
    obtain ⟨v, hv⟩ := lookup_of_containsKey he
    rw [expectedMsg_inj h2] at hv
    rw [h1] at hv
    cases hv

/-- Witness for `c7_found_none_iff_unvisited` at the concrete test `tC7`. -/
theorem c7_found_none_iff_unvisited_witness :
    (walk 10 "A" ["x"] tC7.transforms [] = some [("B", []), ("A", ["x"])] ∧
      UnitTest.run 10 tC7 = some []) ∧
    ((∀ c ∈ tC7.checks,
        lookupKV [("B", ([] : List Event)), ("A", ["x"])] c.extract_from = none →
        expectedMsg c.extract_from ∈ ([] : List String)) ∧
      (∀ e, containsKey [("B", ([] : List Event)), ("A", ["x"])] e = true →
        expectedMsg e ∉ ([] : List String))) :=
  ⟨⟨by rfl, by rfl⟩,
    c7_found_none_iff_unvisited 10 tC7 [("B", []), ("A", ["x"])] []
      (by rfl) (by rfl)⟩

/-! ## The substring grammar of `concat` (claims C8 and C10) -/

/-- C8 (counterexample): the malformed item `a[1` — an unclosed bracket —
is NOT rejected: `Substring::new` accepts it, silently returning the
residual buffer `1` as the source with no bounds. -/
theorem c8_unclosed_bracket_accepted :
    concat.Substring.new "a[1" = concat.ParseResult.ok ⟨"1", none, none⟩ := by
  decide

theorem bracketLoop_digits :
    ∀ (ds rest source : List Char) (st : Option Nat) (buf : List Char),
      (∀ c ∈ ds, c.isDigit = true) →
      concat.bracketLoop (ds ++ rest) source st buf =
        concat.bracketLoop rest source st (buf ++ ds) := by
  intro ds
  induction ds with
  | nil => simp
  | cons c cs ih =>
    intro rest source st buf hd
    have hc : c.isDigit = true := hd c (by simp)
    have hcdot : ¬ c = '.' := by
      intro h; rw [h] at hc; exact absurd hc (by decide)
    have hcbr : ¬ c = ']' := by
      intro h; rw [h] at hc; exact absurd hc (by decide)
    simp only [List.cons_append]
    rw [concat.bracketLoop.eq_def]
    simp only [if_neg hcdot, if_neg hcbr, if_pos hc]
    rw [ih rest source st (buf ++ [c]) (fun d hdm => hd d (by simp [hdm]))]
    simp

theorem outerLoop_to_bracket :
    ∀ (src : List Char) (rest buf : List Char), '[' ∉ src →
      concat.outerLoop (src ++ '[' :: rest) buf =
        concat.bracketLoop rest (buf ++ src) none [] := by
  intro src
  induction src with
  | nil => intro rest buf _; simp [concat.outerLoop]
  | cons c cs ih =>
    intro rest buf hmem
    have hc : ¬ c = '[' := fun h => hmem (by simp [h])
    simp only [List.cons_append]
    rw [concat.outerLoop.eq_def]
    simp only [if_neg hc, List.append_eq]
    rw [ih rest (buf ++ [c]) (fun h => hmem (by simp [h]))]
    simp

theorem bracketLoop_dotdot (rest source : List Char) (st : Option Nat) (buf : List Char) :
    concat.bracketLoop ('.' :: '.' :: rest) source st buf =
      concat.bracketLoop rest source (concat.parseU8 buf) [] := by
  rw [concat.bracketLoop.eq_def]
  simp

theorem bracketLoop_dot_not_dot (c2 : Char) (rest source : List Char) (st : Option Nat)
    (buf : List Char) (hc2 : c2 ≠ '.') :
    concat.bracketLoop ('.' :: c2 :: rest) source st buf =
      concat.ParseResult.err "invalid format, use source[start..end]" := by
  rw [concat.bracketLoop.eq_def]
  simp [hc2]

theorem bracketLoop_badchar (c : Char) (rest source : List Char) (st : Option Nat)
    (buf : List Char) (hdig : ¬ c.isDigit = true) (hdot : c ≠ '.') (hbr : c ≠ ']') :
    concat.bracketLoop (c :: rest) source st buf =
      concat.ParseResult.err "invalid format, missing ']'" := by
  rw [concat.bracketLoop.eq_def]
  simp only [if_neg hdot, if_neg hbr, if_neg hdig]

/-- C8 (amended): the grammar `source [ start .. end ]` (digit bounds,
possibly absent, parsed as `u8` with out-of-range values treated as
absent) is accepted; inside the brackets a `.` not followed by a second
`.` and any character other than a digit, `.` or `]` are build-time
errors (in the start-bound region and in the end-bound region alike) —
but an unclosed `[` is NOT an error when characters remain in the
buffer: the residue is accepted as a bare source with no bounds; an
unclosed `[` with an empty buffer is an error; and an item ending right
after a `.` inside the brackets panics on an `unwrap`. -/
theorem c8_grammar (src ds1 ds2 : List Char)
    (hsrc : '[' ∉ src)
    (h1 : ∀ c ∈ ds1, c.isDigit = true)
    (h2 : ∀ c ∈ ds2, c.isDigit = true) :
    concat.Substring.new (String.mk (src ++ '[' :: (ds1 ++ '.' :: '.' :: (ds2 ++ [']'])))) =
      concat.ParseResult.ok ⟨String.mk src, concat.parseU8 ds1, concat.parseU8 ds2⟩ ∧
    (∀ c2 suffix, c2 ≠ '.' →
      concat.Substring.new (String.mk (src ++ '[' :: (ds1 ++ '.' :: c2 :: suffix))) =
        concat.ParseResult.err "invalid format, use source[start..end]") ∧
    (∀ c2 suffix, c2 ≠ '.' →
      concat.Substring.new
          (String.mk (src ++ '[' :: (ds1 ++ '.' :: '.' :: (ds2 ++ '.' :: c2 :: suffix)))) =
        concat.ParseResult.err "invalid format, use source[start..end]") ∧
    (∀ c suffix, ¬ c.isDigit = true → c ≠ '.' → c ≠ ']' →
      concat.Substring.new (String.mk (src ++ '[' :: (ds1 ++ c :: suffix))) =
        concat.ParseResult.err "invalid format, missing ']'") ∧
    (∀ c suffix, ¬ c.isDigit = true → c ≠ '.' → c ≠ ']' →
      concat.Substring.new
          (String.mk (src ++ '[' :: (ds1 ++ '.' :: '.' :: (ds2 ++ c :: suffix)))) =
        concat.ParseResult.err "invalid format, missing ']'") ∧
    (ds1 ≠ [] →
      concat.Substring.new (String.mk (src ++ '[' :: ds1)) =
        concat.ParseResult.ok ⟨String.mk ds1, none, none⟩) ∧
    concat.Substring.new (String.mk (src ++ '[' :: (ds1 ++ ['.']))) =
      concat.ParseResult.panics ∧
    concat.Substring.new (String.mk (src ++ ['['])) =
      concat.ParseResult.err "invalid format, use source[start..end]" := by
  refine ⟨?_, ?_, ?_, ?_, ?_, ?_, ?_, ?_⟩
  · show concat.outerLoop (src ++ '[' :: (ds1 ++ '.' :: '.' :: (ds2 ++ [']']))) [] = _
    rw [outerLoop_to_bracket src _ [] hsrc]
    rw [bracketLoop_digits ds1 _ _ _ _ h1]
    rw [bracketLoop_dotdot]
    rw [bracketLoop_digits ds2 _ _ _ _ h2]
    rw [concat.bracketLoop.eq_def]
    simp
  · intro c2 suffix hc2
    show concat.outerLoop (src ++ '[' :: (ds1 ++ '.' :: c2 :: suffix)) [] = _
    rw [outerLoop_to_bracket src _ [] hsrc]
    rw [bracketLoop_digits ds1 _ _ _ _ h1]
    rw [bracketLoop_dot_not_dot c2 suffix _ _ _ hc2]
  · intro c2 suffix hc2
    show concat.outerLoop
        (src ++ '[' :: (ds1 ++ '.' :: '.' :: (ds2 ++ '.' :: c2 :: suffix))) [] = _
    rw [outerLoop_to_bracket src _ [] hsrc]
    rw [bracketLoop_digits ds1 _ _ _ _ h1]
    rw [bracketLoop_dotdot]
    rw [bracketLoop_digits ds2 _ _ _ _ h2]
    rw [bracketLoop_dot_not_dot c2 suffix _ _ _ hc2]
  · intro c suffix hdig hdot hbr
    show concat.outerLoop (src ++ '[' :: (ds1 ++ c :: suffix)) [] = _
    rw [outerLoop_to_bracket src _ [] hsrc]
    rw [bracketLoop_digits ds1 _ _ _ _ h1]
    rw [bracketLoop_badchar c suffix _ _ _ hdig hdot hbr]
  · intro c suffix hdig hdot hbr
    show concat.outerLoop
        (src ++ '[' :: (ds1 ++ '.' :: '.' :: (ds2 ++ c :: suffix))) [] = _
    rw [outerLoop_to_bracket src _ [] hsrc]
    rw [bracketLoop_digits ds1 _ _ _ _ h1]
    rw [bracketLoop_dotdot]
    rw [bracketLoop_digits ds2 _ _ _ _ h2]
    rw [bracketLoop_badchar c suffix _ _ _ hdig hdot hbr]
  · intro hne
    show concat.outerLoop (src ++ '[' :: ds1) [] = _
    rw [outerLoop_to_bracket src _ [] hsrc]
    have : ds1 = ds1 ++ [] := by simp
    rw [this, bracketLoop_digits ds1 [] _ _ _ h1]
    rw [concat.bracketLoop.eq_def]
    simp [hne]
  · show concat.outerLoop (src ++ '[' :: (ds1 ++ ['.'])) [] = _
    rw [outerLoop_to_bracket src _ [] hsrc]
    rw [bracketLoop_digits ds1 _ _ _ _ h1]
    rw [concat.bracketLoop.eq_def]
    simp
  · show concat.outerLoop (src ++ ['[']) [] = _
    rw [outerLoop_to_bracket src [] [] hsrc]
    rw [concat.bracketLoop.eq_def]
    simp

/-- Witness for `c8_grammar` with source `a`, bounds `300` and `2` and
the foreign character `x`: `a[300..2]` parses with `start = none` (`300`
does not fit in `u8`), and every error and panic conjunct is exercised. -/
theorem c8_grammar_witness :
    ('[' ∉ ['a'] ∧ (∀ c ∈ ['3', '0', '0'], c.isDigit = true) ∧
      (∀ c ∈ ['2'], c.isDigit = true) ∧
      ('x' ≠ '.' ∧ ¬ 'x'.isDigit = true ∧ 'x' ≠ ']') ∧
      ['3', '0', '0'] ≠ ([] : List Char)) ∧
    (concat.Substring.new
        (String.mk (['a'] ++ '[' :: (['3', '0', '0'] ++ '.' :: '.' :: (['2'] ++ [']'])))) =
      concat.ParseResult.ok
        ⟨String.mk ['a'], concat.parseU8 ['3', '0', '0'], concat.parseU8 ['2']⟩ ∧
    concat.Substring.new (String.mk (['a'] ++ '[' :: (['3', '0', '0'] ++ '.' :: 'x' :: []))) =
      concat.ParseResult.err "invalid format, use source[start..end]" ∧
    concat.Substring.new
        (String.mk (['a'] ++ '[' :: (['3', '0', '0'] ++ '.' :: '.' :: (['2'] ++ '.' :: 'x' :: [])))) =
      concat.ParseResult.err "invalid format, use source[start..end]" ∧
    concat.Substring.new (String.mk (['a'] ++ '[' :: (['3', '0', '0'] ++ 'x' :: []))) =
      concat.ParseResult.err "invalid format, missing ']'" ∧
    concat.Substring.new
        (String.mk (['a'] ++ '[' :: (['3', '0', '0'] ++ '.' :: '.' :: (['2'] ++ 'x' :: [])))) =
      concat.ParseResult.err "invalid format, missing ']'" ∧
    concat.Substring.new (String.mk (['a'] ++ '[' :: ['3', '0', '0'])) =
      concat.ParseResult.ok ⟨String.mk ['3', '0', '0'], none, none⟩ ∧
    concat.Substring.new (String.mk (['a'] ++ '[' :: (['3', '0', '0'] ++ ['.']))) =
      concat.ParseResult.panics ∧
    concat.Substring.new (String.mk (['a'] ++ ['['])) =
      concat.ParseResult.err "invalid format, use source[start..end]") := by
  have h := c8_grammar ['a'] ['3', '0', '0'] ['2'] (by decide) (by decide) (by decide)
  exact ⟨⟨by decide, by decide, by decide, ⟨by decide, by decide, by decide⟩, by decide⟩,
    h.1, h.2.1 'x' [] (by decide), h.2.2.1 'x' [] (by decide),
    h.2.2.2.1 'x' [] (by decide) (by decide) (by decide),
    h.2.2.2.2.1 'x' [] (by decide) (by decide) (by decide),
    h.2.2.2.2.2.1 (by decide), h.2.2.2.2.2.2.1, h.2.2.2.2.2.2.2⟩

/-- C10: a bound that does not fit in `u8` (here `300` in
`field[0..300]`) is silently parsed as absent, so `Concat::transform`
falls back to the defaults: start `0` and the full byte length — the
whole field is used, with no error. -/
theorem c10_oversized_bounds_default (ev : concat.LogEvent) (b : List Nat)
    (h : lookupKV ev "field" = some b) :
    concat.Substring.new "field[0..300]" =
      concat.ParseResult.ok ⟨"field", some 0, none⟩ ∧
    (∀ ds : List Char,
      256 ≤ ds.foldl (fun a c => a * 10 + (c.toNat - '0'.toNat)) 0 →
      concat.parseU8 ds = none) ∧
    concat.transform "out" [] [⟨"field", some 0, none⟩] ev =
      some (insertKV ev "out" b) := by
  refine ⟨by decide, ?_, ?_⟩
  · intro ds hds
    by_cases hnil : ds = []
    · simp [concat.parseU8, hnil]
    · simp only [concat.parseU8, if_neg hnil]
      by_cases hall : ds.all Char.isDigit
      · simp only [if_pos hall]
        split
        · rename_i hlt
          exact absurd hlt (by omega)
        · rfl
      · simp [hall]
  · unfold concat.transform concat.concatParts
    rw [h]
    have hs : concat.bytesSlice b 0 b.length = some b := by
      unfold concat.bytesSlice
      simp
    simp only [Option.getD]
    rw [hs]
    simp [concat.concatParts, concat.joinBytes]

/-- Witness for `c10_oversized_bounds_default` at a three-byte field. -/
theorem c10_oversized_bounds_default_witness :
    lookupKV [("field", [1, 2, 3])] "field" = some [1, 2, 3] ∧
    (concat.Substring.new "field[0..300]" =
      concat.ParseResult.ok ⟨"field", some 0, none⟩ ∧
    (∀ ds : List Char,
      256 ≤ ds.foldl (fun a c => a * 10 + (c.toNat - '0'.toNat)) 0 →
      concat.parseU8 ds = none) ∧
    concat.transform "out" [] [⟨"field", some 0, none⟩] [("field", [1, 2, 3])] =
      some (insertKV [("field", [1, 2, 3])] "out" [1, 2, 3])) :=
  ⟨by decide, c10_oversized_bounds_default [("field", [1, 2, 3])] [1, 2, 3] (by decide)⟩
